import Mathlib

/-
Verification of the StACSOS buddy page allocator
(src/kernel/mem/page-allocator-buddy.cpp, second document of
src/unnamed/part_010, together with the class header
src/kernel/inc/stacsos/kernel/mem/page-allocator-buddy.h) and of the
round-robin scheduler (src/kernel/src/sched/alg/rr.cpp).

The allocator state is embedded shallowly:
 * `free_list_[order]` (an intrusive singly linked list threaded through the
   first word of each free page) becomes a `List Nat` of starting PFNs.  Page
   descriptors are contiguous in memory, so the pointer comparison
   `*slot < target` used by `insert_free_block` is exactly PFN comparison.
 * `pending_merges_[order][MAX_PENDING_MERGES / 64]` has a single u64 word per
   order (64 / 64 = 1), so each row becomes one `Nat` below 2 ^ 64.
 * `total_free_` is a u64 counter; increments and decrements are taken
   modulo 2 ^ 64.
 * a C++ `assert` failure, a `panic`, and an out-of-bounds array access are
   all modelled by the operation returning `none`.
-/

namespace StacsOS

def LastOrder : Nat := 16

def MAX_PENDING_MERGES : Nat := 64

def U64 : Nat := 2 ^ 64

/-- u64 addition as performed on `total_free_`. -/
def add64 (a b : Nat) : Nat := (a + b) % U64

/-- u64 subtraction as performed on `total_free_` (wraps modulo 2 ^ 64). -/
def sub64 (a b : Nat) : Nat := (a + (U64 - b % U64)) % U64

/-- Source `pages_per_block(order) = 1 << order`. -/
def pages_per_block (order : Nat) : Nat := 1 <<< order

/-- Source `block_aligned(order, pfn) = !(pfn & (pages_per_block(order) - 1))`. -/
def block_aligned (order pfn : Nat) : Bool := pfn &&& (pages_per_block order - 1) == 0

/-- Source `calculate_other_buddy_pfn(order, pfn) = pfn ^ (1 << order)`. -/
def calculate_other_buddy_pfn (order pfn : Nat) : Nat := pfn ^^^ (1 <<< order)

/-- The allocator state: the 17 per-order free lists (as sorted PFN lists),
the 17 pending-merge bitmap words, and the u64 `total_free_` counter. -/
structure AllocState where
  free_list : List (List Nat)
  pending_merges : List Nat
  total_free : Nat
deriving DecidableEq, Repr

/-- Write position `k` of a list, leaving the list unchanged when `k` is out
of range (used for the in-range accesses; out-of-range writes that occur in
the source are modelled as failures at their call sites). -/
def setIdx {α : Type} : List α → Nat → α → List α
  | [], _, _ => []
  | _ :: xs, 0, a => a :: xs
  | x :: xs, n + 1, a => x :: setIdx xs n a

/-- The free list of one order (rows past the array end read as empty). -/
def getL (st : AllocState) (k : Nat) : List Nat := st.free_list.getD k []

/-- The pending-merge bitmap word of one order. -/
def getP (st : AllocState) (k : Nat) : Nat := st.pending_merges.getD k 0

def setL (st : AllocState) (k : Nat) (l : List Nat) : AllocState :=
  { st with free_list := setIdx st.free_list k l }

def setP (st : AllocState) (k : Nat) (w : Nat) : AllocState :=
  { st with pending_merges := setIdx st.pending_merges k w }

/-- The walk of `insert_free_block`: advance while `*slot < target`, then
fail on the `assert(*slot != target)` duplicate check, else splice in. -/
def insertSorted (p : Nat) : List Nat → Option (List Nat)
  | [] => some [p]
  | x :: xs =>
    if x < p then (insertSorted p xs).map (fun t => x :: t)
    else if x = p then none
    else some (p :: x :: xs)

/-- The walk of `remove_free_block`: advance until the target is found,
failing (assert) when the list ends first. -/
def removeFirst (p : Nat) : List Nat → Option (List Nat)
  | [] => none
  | x :: xs => if x = p then some xs else (removeFirst p xs).map (fun t => x :: t)

/-- `page_allocator_buddy::insert_free_block` (part_010, second document). -/
def insert_free_block (order p : Nat) (st : AllocState) : Option AllocState :=
  if order ≤ LastOrder then
    if block_aligned order p then
      match insertSorted p (getL st order) with
      | some l => some (setL st order l)
      | none => none
    else none
  else none

/-- `page_allocator_buddy::remove_free_block`. -/
def remove_free_block (order p : Nat) (st : AllocState) : Option AllocState :=
  if order ≤ LastOrder then
    if block_aligned order p then
      match removeFirst p (getL st order) with
      | some l => some (setL st order l)
      | none => none
    else none
  else none

/-- `page_allocator_buddy::is_buddy_free`: walk `free_list_[order]` for the
PFN. -/
def is_buddy_free (order p : Nat) (st : AllocState) : Bool :=
  (getL st order).contains p

/-- `page_allocator_buddy::split_block`. -/
def split_block (order p : Nat) (st : AllocState) : Option AllocState :=
  if 0 < order ∧ order ≤ LastOrder then
    if block_aligned order p then
      (remove_free_block order p st).bind (fun st1 =>
        (insert_free_block (order - 1) p st1).bind (fun st2 =>
          insert_free_block (order - 1) (p + (1 <<< (order - 1))) st2))
    else none
  else none

/-- `page_allocator_buddy::merge_buddies` (second document): note the
`assert(is_buddy_free(order, other_buddy.pfn()))`, which fails hard when the
buddy is not free. -/
def merge_buddies (order p : Nat) (st : AllocState) : Option AllocState :=
  if order ≤ LastOrder then
    if block_aligned order p && block_aligned order (calculate_other_buddy_pfn order p) then
      if is_buddy_free order (calculate_other_buddy_pfn order p) st then
        (remove_free_block order p st).bind (fun st1 =>
          (remove_free_block order (calculate_other_buddy_pfn order p) st1).bind (fun st2 =>
            insert_free_block (order + 1) (min p (calculate_other_buddy_pfn order p)) st2))
      else none
    else none
  else none

/-- `page_allocator_buddy::pending_merge_index` (also called
`get_pending_index` at its use in `cleanup_pending_merges`):
`(lower_pfn + order) % MAX_PENDING_MERGES`. -/
def pending_merge_index (pfn order : Nat) : Nat := (pfn + order) % MAX_PENDING_MERGES

/-- `page_allocator_buddy::set_pending_merge`; the row index is the order,
and rows beyond `LastOrder` do not exist (out of bounds). -/
def set_pending_merge (pfn order : Nat) (st : AllocState) : Option AllocState :=
  if order ≤ LastOrder then
    let i := pending_merge_index pfn order
    some (setP st order (getP st order ||| (1 <<< (i % 64))))
  else none

/-- `page_allocator_buddy::get_bit`. -/
def get_bit (order idx : Nat) (st : AllocState) : Nat :=
  if getP st order &&& (1 <<< (idx % 64)) ≠ 0 then 1 else 0

/-- `page_allocator_buddy::is_pending_merge`. -/
def is_pending_merge (pfn order : Nat) (st : AllocState) : Bool :=
  get_bit order (pending_merge_index pfn order) st == 1

/-- `page_allocator_buddy::clear_pending_merge`: clears one bit of row
`order`; an out-of-range row (the array has `LastOrder + 1` rows) is an
out-of-bounds write, modelled as failure. -/
def clear_pending_merge (pfn order : Nat) (st : AllocState) : Option AllocState :=
  if order ≤ LastOrder then
    let i := pending_merge_index pfn order
    some (setP st order (getP st order &&& ((U64 - 1) ^^^ (1 <<< (i % 64)))))
  else none

/-- One candidate of `cleanup_pending_merges` (order, bit index).  The source
passes `(order, possible_lower_pfn)` to `clear_pending_merge(pfn, order)`,
swapping the two arguments; the embedding reproduces that call exactly. -/
def cleanup_step (order idx : Nat) (st : AllocState) : Option AllocState :=
  if get_bit order idx st = 1 then
    if pending_merge_index idx order = idx then
      if block_aligned order idx && block_aligned order (calculate_other_buddy_pfn order idx) &&
          is_buddy_free order idx st && is_buddy_free order (calculate_other_buddy_pfn order idx) st then
        (merge_buddies order idx st).bind (fun st1 => clear_pending_merge order idx st1)
      else clear_pending_merge order idx st
    else clear_pending_merge order idx st
  else some st

/-- The inner loop of `cleanup_pending_merges`: run the candidates of one
order in the given order of bit indices. -/
def cleanup_row (order : Nat) : List Nat → AllocState → Option AllocState
  | [], st => some st
  | idx :: rest, st => (cleanup_step order idx st).bind (fun st1 => cleanup_row order rest st1)

/-- The outer loop of `cleanup_pending_merges` over orders. -/
def cleanup_orders : List Nat → AllocState → Option AllocState
  | [], st => some st
  | o :: rest, st =>
    (cleanup_row o (List.range MAX_PENDING_MERGES) st).bind (fun st1 => cleanup_orders rest st1)

/-- `page_allocator_buddy::cleanup_pending_merges`: for every order `0` to
`LastOrder` and every bit index `0` to `63`, run `cleanup_step`. -/
def cleanup_pending_merges (st : AllocState) : Option AllocState :=
  cleanup_orders (List.range (LastOrder + 1)) st

/-- The split chain of both allocation loops: while the current order is
above the requested one, `split_block` at the current order and step down.
In the first loop the block is still on its free list when this runs; in the
retry loop it has already been removed, so any actual split fails the
`remove_free_block` assert inside `split_block`. -/
def splitDown (p target : Nat) : Nat → AllocState → Option AllocState
  | 0, st => some st
  | co + 1, st =>
    if target < co + 1 then
      (split_block (co + 1) p st).bind (fun st1 => splitDown p target co st1)
    else some st

/-- First loop of `allocate_pages` over the candidate orders: find a
non-empty list, split its head block down, then remove it at the requested
order.  The outer `none` is a panic; `some none` means the scan found
nothing. -/
def alloc_scan_split_first (order : Nat) : List Nat → AllocState → Option (Option (AllocState × Nat))
  | [], _ => some none
  | co :: rest, st =>
    match getL st co with
    | [] => alloc_scan_split_first order rest st
    | p :: _ =>
      (splitDown p order co st).bind (fun st1 =>
        (remove_free_block order p st1).bind (fun st2 =>
          some (some ({ st2 with total_free := sub64 st2.total_free (pages_per_block order) }, p))))

/-- Retry loop of `allocate_pages` after the cleanup pass: it removes the
found block first and only then walks the split chain. -/
def alloc_scan_remove_first (order : Nat) : List Nat → AllocState → Option (Option (AllocState × Nat))
  | [], _ => some none
  | co :: rest, st =>
    match getL st co with
    | [] => alloc_scan_remove_first order rest st
    | p :: _ =>
      (remove_free_block co p st).bind (fun st1 =>
        (splitDown p order co st1).bind (fun st2 =>
          some (some ({ st2 with total_free := sub64 st2.total_free (pages_per_block order) }, p))))

/-- The candidate orders of both allocation loops:
`order, order + 1, ..., LastOrder`. -/
def scan_range (order : Nat) : List Nat := List.range' order (LastOrder + 1 - order)

/-- `page_allocator_buddy::allocate_pages`.  The `zero` allocation flag only
memsets the returned page bytes (`memops::pzero`), which are outside the
allocator state, so flags are not part of the embedding.  Result:
`none` = panic, `some (st, none)` = nullptr (out of memory),
`some (st, some p)` = block at PFN `p` allocated. -/
def allocate_pages (order : Nat) (st : AllocState) : Option (AllocState × Option Nat) :=
  if order ≤ LastOrder then
    match alloc_scan_split_first order (scan_range order) st with
    | some (some (st1, p)) => some (st1, some p)
    | some none =>
      match cleanup_pending_merges st with
      | some st1 =>
        match alloc_scan_remove_first order (scan_range order) st1 with
        | some (some (st2, p)) => some (st2, some p)
        | some none => some (st1, none)
        | none => none
      | none => none
    | none => none
  else none

/-- Body of `free_pages`, structurally recursive on a fuel argument that the
wrapper sets to `LastOrder + 1 - order`; since every recursive call is
guarded by `order < LastOrder`, fuel never runs out before the
`order ≤ LastOrder` assert would fail anyway. -/
def free_pages_go (p order : Nat) : Nat → AllocState → Option AllocState
  | 0, _ => none
  | fuel + 1, st =>
    if order ≤ LastOrder then
      if block_aligned order p then
        (insert_free_block order p st).bind (fun st1 =>
          if order < LastOrder then
            if block_aligned order (calculate_other_buddy_pfn order p) &&
                is_buddy_free order (calculate_other_buddy_pfn order p) st1 then
              if is_pending_merge (min p (calculate_other_buddy_pfn order p)) order st1 then
                (clear_pending_merge (min p (calculate_other_buddy_pfn order p)) order st1).bind (fun st2 =>
                  (merge_buddies order p st2).bind (fun st3 =>
                    (free_pages_go (min p (calculate_other_buddy_pfn order p)) (order + 1) fuel st3).bind (fun st4 =>
                      some { st4 with total_free := add64 st4.total_free (pages_per_block order) })))
              else
                (set_pending_merge (min p (calculate_other_buddy_pfn order p)) order st1).bind (fun st2 =>
                  some { st2 with total_free := add64 st2.total_free (pages_per_block order) })
            else some { st1 with total_free := add64 st1.total_free (pages_per_block order) }
          else some { st1 with total_free := add64 st1.total_free (pages_per_block order) })
      else none
    else none

/-- `page_allocator_buddy::free_pages` (second document): insert, then either
resolve a pending merge now (merge, recurse one order up) or record one, and
finally add this frame's `pages_per_block(order)` to `total_free_`. -/
def free_pages (p order : Nat) (st : AllocState) : Option AllocState :=
  free_pages_go p order (LastOrder + 1 - order) st

/-- The order search of `insert_free_pages`: walk down from `LastOrder`
while the block is misaligned or too large for the remaining count. -/
def pick_order (pfn remaining : Nat) : Nat → Nat
  | 0 => 0
  | o + 1 =>
    if block_aligned (o + 1) pfn && pages_per_block (o + 1) ≤ remaining then o + 1
    else pick_order pfn remaining o

/-- Body of the donation loop of `insert_free_pages`, structurally recursive
on a fuel argument that the wrapper sets to `remaining`; every pass consumes
at least one page of `remaining`, so fuel never runs out first. -/
def insert_loop_go (pfn remaining inserted : Nat) : Nat → AllocState → Option (AllocState × Nat)
  | 0, st => if remaining = 0 then some (st, inserted) else none
  | fuel + 1, st =>
    if remaining = 0 then some (st, inserted)
    else
      (free_pages pfn (pick_order pfn remaining LastOrder) st).bind (fun st1 =>
        insert_loop_go (pfn + pages_per_block (pick_order pfn remaining LastOrder))
          (remaining - pages_per_block (pick_order pfn remaining LastOrder))
          (inserted + pages_per_block (pick_order pfn remaining LastOrder)) fuel st1)

/-- The donation loop of `insert_free_pages`; returns the final state and the
`inserted` counter. -/
def insert_loop (pfn remaining inserted : Nat) (st : AllocState) : Option (AllocState × Nat) :=
  insert_loop_go pfn remaining inserted remaining st

/-- `page_allocator_buddy::insert_free_pages` (second document): frees each
chunk through `free_pages`, then adds the whole `inserted` count to
`total_free_` once more. -/
def insert_free_pages (pfn count : Nat) (st : AllocState) : Option AllocState :=
  if 0 < count then
    (insert_loop pfn count 0 st).bind (fun r =>
      some { r.1 with total_free := add64 r.1.total_free r.2 })
  else none

/-- The state after the `page_allocator_buddy` constructor: all free lists
empty, all pending-merge words zero.  The constructor never writes
`total_free_`; the parameter `t` models the indeterminate value the member
holds when the constructor returns. -/
def initial_state (t : Nat) : AllocState :=
  { free_list := List.replicate (LastOrder + 1) []
    pending_merges := List.replicate (LastOrder + 1) 0
    total_free := t % U64 }

/-- One public allocator call. -/
inductive AllocOp where
  | alloc (order : Nat)
  | free (pfn order : Nat)
  | insert (pfn count : Nat)
deriving DecidableEq, Repr

/-- Run one public call; an allocation that returns the nullptr sentinel is a
normal completion, `none` is a panic. -/
def run_op (st : AllocState) : AllocOp → Option AllocState
  | .alloc o => (allocate_pages o st).map Prod.fst
  | .free p o => free_pages p o st
  | .insert p c => insert_free_pages p c st

/-- Run a sequence of public calls. -/
def run_ops (st : AllocState) : List AllocOp → Option AllocState
  | [] => some st
  | op :: ops => (run_op st op).bind (fun st1 => run_ops st1 ops)

/-- The pages `[p, p + len)` are disjoint from every block currently on a
free list.  This renders the validity precondition of `free_pages` (the
block was previously handed out by `allocate_pages`, so none of its pages
are free) and of `insert_free_pages` (the donated range is fresh). -/
def FreshRange (st : AllocState) (p len : Nat) : Prop :=
  ∀ k q, q ∈ getL st k → p + len ≤ q ∨ q + pages_per_block k ≤ p

/-- Validity of one public call in a given state, as the interface contract
states it: allocations are always legal, frees and donations must cover
pages that are not currently free. -/
def ValidOp (st : AllocState) : AllocOp → Prop
  | .alloc _ => True
  | .free p o => FreshRange st p (pages_per_block o)
  | .insert p c => FreshRange st p c

/-- States reachable from a freshly constructed allocator by valid public
calls that complete without a panic. -/
inductive Reachable : AllocState → Prop
  | init (t : Nat) : Reachable (initial_state t)
  | step {st st1 : AllocState} (op : AllocOp) :
      Reachable st → ValidOp st op → run_op st op = some st1 → Reachable st1

/-- The conservation quantity: the sum over all orders of the length of the
free list times the pages per block of that order. -/
def sum_free (st : AllocState) : Nat :=
  (List.range (LastOrder + 1)).foldr (fun k acc => (getL st k).length * pages_per_block k + acc) 0

/-- Modelled from the spec: `stacsos::list<T>::rotate` (library code not
present under src/) takes the element at the front of the list, places it at
the back, and returns it; `rr.cpp` documents exactly this behaviour and
guards the call so it never runs on an empty queue. -/
def rotate (q : List Nat) : Option (Nat × List Nat) :=
  match q with
  | [] => none
  | x :: xs => some (x, xs ++ [x])

/-- `round_robin::select_next_task` (second document of rr.cpp): return the
nullptr sentinel on an empty run queue, otherwise rotate the FIFO and return
the rotated task; the `current` argument is ignored.  TCBs are identified by
an id. -/
def select_next_task (current : Option Nat) (q : List Nat) : Option Nat × List Nat :=
  if q.isEmpty then (none, q)
  else
    match rotate q with
    | some (t, q1) => (some t, q1)
    | none => (none, q)

/-- Scenario 1 of the spec: one order-4 free block at PFN 0, `total_free`
16. -/
def scenario1_state : AllocState :=
  { free_list := [[], [], [], [], [0], [], [], [], [], [], [], [], [], [], [], [], []]
    pending_merges := List.replicate (LastOrder + 1) 0
    total_free := 16 }

/-- Scenario 2 of the spec: PFN 0 allocated at order 0 out of scenario 1;
`free_list[0]` = {1}, `free_list[1]` = {2}, `free_list[2]` = {4},
`free_list[3]` = {8}, `total_free` 15. -/
def scenario2_state : AllocState :=
  { free_list := [[1], [2], [4], [8], [], [], [], [], [], [], [], [], [], [], [], [], []]
    pending_merges := List.replicate (LastOrder + 1) 0
    total_free := 15 }

/-- Scenario 2 after `free_pages(0, 0)`: the pending bit (lower 0, order 0)
is set, no merge has happened. -/
def scenario2_freed_state : AllocState :=
  { free_list := [[0, 1], [2], [4], [8], [], [], [], [], [], [], [], [], [], [], [], [], []]
    pending_merges := [1, 0, 0, 0, 0, 0, 0, 0, 0, 0, 0, 0, 0, 0, 0, 0, 0]
    total_free := 16 }

/-- What `allocate_pages(4)` actually leaves behind from
`scenario2_freed_state`: the cleanup pass merges only (0, 1) into an order-1
block, nothing cascades, and the allocation fails. -/
def cascade_fail_state : AllocState :=
  { free_list := [[], [0, 2], [4], [8], [], [], [], [], [], [], [], [], [], [], [], [], []]
    pending_merges := List.replicate (LastOrder + 1) 0
    total_free := 16 }

/-- The state after `insert_free_pages(0, 1)` on a fresh allocator with
`total_free_` starting at 0: one page free but `total_free` = 2. -/
def donate_one_state : AllocState :=
  { free_list := [[0], [], [], [], [], [], [], [], [], [], [], [], [], [], [], [], []]
    pending_merges := List.replicate (LastOrder + 1) 0
    total_free := 2 }

/-- The state reached by freeing PFNs 33 and 32 at order 0 and allocating
both back: all lists empty, but the pending bit for (lower 32, order 0) is
still set at bit index 32 of row 0. -/
def pend32_state : AllocState :=
  { free_list := List.replicate (LastOrder + 1) []
    pending_merges := [4294967296, 0, 0, 0, 0, 0, 0, 0, 0, 0, 0, 0, 0, 0, 0, 0, 0]
    total_free := 0 }

/-- A state with a single order-0 free block at PFN 4 (whose buddy PFN 5 is
not free). -/
def single4_state : AllocState :=
  { free_list := [[4], [], [], [], [], [], [], [], [], [], [], [], [], [], [], [], []]
    pending_merges := List.replicate (LastOrder + 1) 0
    total_free := 1 }

/-- A state with the buddy pair 0, 1 free at order 0 and their pending-merge
bit set; everything at order 1 and above is empty. -/
def pending_pair_state : AllocState :=
  { free_list := [[0, 1], [], [], [], [], [], [], [], [], [], [], [], [], [], [], [], []]
    pending_merges := [1, 0, 0, 0, 0, 0, 0, 0, 0, 0, 0, 0, 0, 0, 0, 0, 0]
    total_free := 2 }

/-- What `allocate_pages(2)` leaves behind from `pending_pair_state`: the
cleanup pass coalesced the pair into an order-1 block at PFN 0. -/
def merged_pair_state : AllocState :=
  { free_list := [[], [0], [], [], [], [], [], [], [], [], [], [], [], [], [], [], []]
    pending_merges := List.replicate (LastOrder + 1) 0
    total_free := 2 }

/-- The state after `insert_free_pages(3, 5)` on a fresh allocator with
`total_free_` starting at 0: blocks order-0 at 3 and order-2 at 4, and
`total_free` = 10 (double counted). -/
def misaligned_donate_state : AllocState :=
  { free_list := [[3], [], [4], [], [], [], [], [], [], [], [], [], [], [], [], [], []]
    pending_merges := List.replicate (LastOrder + 1) 0
    total_free := 10 }

/-- The structural invariant of the free lists (spec section 3): 17 rows,
each sorted strictly ascending, each entry aligned to its order, and the
page ranges of any two distinct free blocks disjoint. -/
structure Inv (st : AllocState) : Prop where
  len : st.free_list.length = LastOrder + 1
  sorted : ∀ k, (getL st k).Pairwise (· < ·)
  aligned : ∀ k, ∀ p, p ∈ getL st k → p % pages_per_block k = 0
  disj : ∀ k j p q, p ∈ getL st k → q ∈ getL st j → ¬(k = j ∧ p = q) →
    p + pages_per_block k ≤ q ∨ q + pages_per_block j ≤ p

theorem pages_per_block_eq (o : Nat) : pages_per_block o = 2 ^ o := by
  simp [pages_per_block, Nat.one_shiftLeft]

theorem pages_per_block_pos (o : Nat) : 0 < pages_per_block o := by
  rw [pages_per_block_eq]
  positivity

theorem block_aligned_iff {o p : Nat} : block_aligned o p = true ↔ p % 2 ^ o = 0 := by
  simp [block_aligned, pages_per_block_eq, Nat.and_pow_two_sub_one_eq_mod]

theorem pages_per_block_mono {a b : Nat} (h : a ≤ b) : pages_per_block a ≤ pages_per_block b := by
  rw [pages_per_block_eq, pages_per_block_eq]
  exact Nat.pow_le_pow_right (by omega) h

theorem pages_per_block_double {o : Nat} (ho : 0 < o) :
    pages_per_block (o - 1) + pages_per_block (o - 1) = pages_per_block o := by
  rw [pages_per_block_eq, pages_per_block_eq]
  have h1 : o - 1 + 1 = o := by omega
  calc 2 ^ (o - 1) + 2 ^ (o - 1) = 2 ^ (o - 1) * 2 := by ring
  _ = 2 ^ (o - 1 + 1) := by rw [pow_succ]
  _ = 2 ^ o := by rw [h1]

theorem pages_per_block_succ (o : Nat) :
    pages_per_block (o + 1) = pages_per_block o + pages_per_block o := by
  have h := @pages_per_block_double (o + 1) (by omega)
  simpa using h.symm

theorem setIdx_length {α : Type} (l : List α) (k : Nat) (a : α) :
    (setIdx l k a).length = l.length := by
  induction l generalizing k with
  | nil => rfl
  | cons x xs ih =>
    cases k with
    | zero => rfl
    | succ n => simp [setIdx, ih]

theorem getD_setIdx_self {α : Type} (l : List α) (k : Nat) (a d : α) (h : k < l.length) :
    (setIdx l k a).getD k d = a := by
  induction l generalizing k with
  | nil => simp at h
  | cons x xs ih =>
    cases k with
    | zero => rfl
    | succ n =>
      simp only [setIdx, List.getD_cons_succ]
      exact ih n (by simpa using h)

theorem getD_setIdx_ne {α : Type} (l : List α) (j k : Nat) (a d : α) (h : j ≠ k) :
    (setIdx l k a).getD j d = l.getD j d := by
  induction l generalizing k j with
  | nil => rfl
  | cons x xs ih =>
    cases k with
    | zero =>
      cases j with
      | zero => exact absurd rfl h
      | succ m => rfl
    | succ n =>
      cases j with
      | zero => rfl
      | succ m =>
        simp only [setIdx, List.getD_cons_succ]
        exact ih m n (by omega)

theorem getL_setL_self {st : AllocState} {k : Nat} {l : List Nat}
    (h : k < st.free_list.length) : getL (setL st k l) k = l := by
  simp only [getL, setL]
  exact getD_setIdx_self _ _ _ _ h

theorem getL_setL_ne {st : AllocState} {j k : Nat} {l : List Nat} (h : j ≠ k) :
    getL (setL st k l) j = getL st j := by
  simp only [getL, setL]
  exact getD_setIdx_ne _ _ _ _ _ h

theorem setL_len {st : AllocState} {k : Nat} {l : List Nat} :
    (setL st k l).free_list.length = st.free_list.length := by
  simp [setL, setIdx_length]

theorem getL_setP {st : AllocState} {k w j : Nat} : getL (setP st k w) j = getL st j := rfl

theorem getL_total {st : AllocState} {x j : Nat} :
    getL { st with total_free := x } j = getL st j := rfl

theorem inv_congr {st st1 : AllocState} (h : st1.free_list = st.free_list) (hinv : Inv st) :
    Inv st1 := by
  have hg : ∀ j, getL st1 j = getL st j := by intro j; simp [getL, h]
  refine ⟨by rw [h]; exact hinv.len, ?_, ?_, ?_⟩
  · intro k; rw [hg]; exact hinv.sorted k
  · intro k p hp; rw [hg] at hp; exact hinv.aligned k p hp
  · intro k j p q hp hq hne
    rw [hg] at hp hq
    exact hinv.disj k j p q hp hq hne

theorem getL_initial (t k : Nat) : getL (initial_state t) k = [] := by
  simp only [getL, initial_state, List.getD_eq_getElem?_getD, List.getElem?_replicate]
  split <;> rfl

theorem getL_out_of_range {st : AllocState} {k : Nat}
    (hlen : st.free_list.length = LastOrder + 1) (hk : LastOrder < k) : getL st k = [] := by
  simp only [getL, List.getD_eq_getElem?_getD]
  rw [List.getElem?_eq_none (by omega)]
  rfl

theorem insertSorted_mem {p : Nat} {l l2 : List Nat} (h : insertSorted p l = some l2) :
    ∀ x, x ∈ l2 ↔ x = p ∨ x ∈ l := by
  induction l generalizing l2 with
  | nil =>
    simp only [insertSorted, Option.some.injEq] at h
    subst h
    simp
  | cons a as ih =>
    intro x
    simp only [insertSorted] at h
    by_cases hlt : a < p
    · rw [if_pos hlt] at h
      cases hrec : insertSorted p as with
      | none => rw [hrec] at h; simp at h
      | some t =>
        rw [hrec] at h
        simp only [Option.map_some', Option.some.injEq] at h
        subst h
        have := ih hrec x
        simp only [List.mem_cons, this]
        tauto
    · rw [if_neg hlt] at h
      by_cases heq : a = p
      · rw [if_pos heq] at h; simp at h
      · rw [if_neg heq] at h
        simp only [Option.some.injEq] at h
        subst h
        simp [List.mem_cons]

theorem insertSorted_pairwise {p : Nat} {l l2 : List Nat} (hs : l.Pairwise (· < ·))
    (h : insertSorted p l = some l2) : l2.Pairwise (· < ·) := by
  induction l generalizing l2 with
  | nil =>
    simp only [insertSorted, Option.some.injEq] at h
    subst h
    simp
  | cons a as ih =>
    simp only [insertSorted] at h
    rcases List.pairwise_cons.mp hs with ⟨ha, has⟩
    by_cases hlt : a < p
    · rw [if_pos hlt] at h
      cases hrec : insertSorted p as with
      | none => rw [hrec] at h; simp at h
      | some t =>
        rw [hrec] at h
        simp only [Option.map_some', Option.some.injEq] at h
        subst h
        refine List.pairwise_cons.mpr ⟨?_, ih has hrec⟩
        intro y hy
        rcases (insertSorted_mem hrec y).mp hy with hyp | hyin
        · omega
        · exact ha y hyin
    · rw [if_neg hlt] at h
      by_cases heq : a = p
      · rw [if_pos heq] at h; simp at h
      · rw [if_neg heq] at h
        simp only [Option.some.injEq] at h
        subst h
        refine List.pairwise_cons.mpr ⟨?_, hs⟩
        intro y hy
        rcases List.mem_cons.mp hy with rfl | hyin
        · omega
        · exact lt_of_lt_of_le (by omega) (le_of_lt (ha y hyin))

theorem insertSorted_none_of_mem {p : Nat} {l : List Nat} (hs : l.Pairwise (· < ·))
    (hp : p ∈ l) : insertSorted p l = none := by
  induction l with
  | nil => simp at hp
  | cons a as ih =>
    rcases List.pairwise_cons.mp hs with ⟨ha, has⟩
    simp only [insertSorted]
    rcases List.mem_cons.mp hp with rfl | hin
    · rw [if_neg (by omega), if_pos rfl]
    · rw [if_pos (ha p hin), ih has hin]
      rfl

theorem removeFirst_sublist {p : Nat} {l l2 : List Nat} (h : removeFirst p l = some l2) :
    l2.Sublist l := by
  induction l generalizing l2 with
  | nil => simp [removeFirst] at h
  | cons a as ih =>
    simp only [removeFirst] at h
    by_cases heq : a = p
    · rw [if_pos heq] at h
      simp only [Option.some.injEq] at h
      subst h
      exact List.sublist_cons_self _ _
    · rw [if_neg heq] at h
      cases hrec : removeFirst p as with
      | none => rw [hrec] at h; simp at h
      | some t =>
        rw [hrec] at h
        simp only [Option.map_some', Option.some.injEq] at h
        subst h
        exact List.Sublist.cons₂ a (ih hrec)

theorem removeFirst_self_mem {p : Nat} {l l2 : List Nat} (h : removeFirst p l = some l2) :
    p ∈ l := by
  induction l generalizing l2 with
  | nil => simp [removeFirst] at h
  | cons a as ih =>
    simp only [removeFirst] at h
    by_cases heq : a = p
    · subst heq; exact List.mem_cons_self a as
    · rw [if_neg heq] at h
      cases hrec : removeFirst p as with
      | none => rw [hrec] at h; simp at h
      | some t => exact List.mem_cons_of_mem a (ih hrec)

theorem removeFirst_mem {p : Nat} {l l2 : List Nat} (hs : l.Pairwise (· < ·))
    (h : removeFirst p l = some l2) : ∀ x, x ∈ l2 ↔ x ∈ l ∧ x ≠ p := by
  induction l generalizing l2 with
  | nil => simp [removeFirst] at h
  | cons a as ih =>
    intro x
    rcases List.pairwise_cons.mp hs with ⟨ha, has⟩
    simp only [removeFirst] at h
    by_cases heq : a = p
    · rw [if_pos heq] at h
      simp only [Option.some.injEq] at h
      subst h
      subst heq
      constructor
      · intro hx
        refine ⟨List.mem_cons_of_mem a hx, ?_⟩
        have := ha x hx
        omega
      · rintro ⟨hx, hne⟩
        rcases List.mem_cons.mp hx with rfl | hin
        · exact absurd rfl hne
        · exact hin
    · rw [if_neg heq] at h
      cases hrec : removeFirst p as with
      | none => rw [hrec] at h; simp at h
      | some t =>
        rw [hrec] at h
        simp only [Option.map_some', Option.some.injEq] at h
        subst h
        have hx := ih has hrec x
        simp only [List.mem_cons, hx]
        constructor
        · rintro (rfl | ⟨hin, hne⟩)
          · exact ⟨Or.inl rfl, fun hc => heq hc⟩
          · exact ⟨Or.inr hin, hne⟩
        · rintro ⟨rfl | hin, hne⟩
          · exact Or.inl rfl
          · exact Or.inr ⟨hin, hne⟩

theorem pairwise_lt_nodup {l : List Nat} (hs : l.Pairwise (· < ·)) : l.Nodup :=
  hs.imp (fun h => Nat.ne_of_lt h)

theorem insert_free_block_eq {o p : Nat} {st st2 : AllocState}
    (h : insert_free_block o p st = some st2) :
    o ≤ LastOrder ∧ block_aligned o p = true ∧
    ∃ l2, insertSorted p (getL st o) = some l2 ∧ st2 = setL st o l2 := by
  unfold insert_free_block at h
  split at h
  · split at h
    · cases hrec : insertSorted p (getL st o) with
      | none => rw [hrec] at h; exact absurd h (by simp)
      | some l2 =>
        rw [hrec] at h
        simp only [Option.some.injEq] at h
        exact ⟨by assumption, by assumption, l2, rfl, h.symm⟩
    · exact absurd h (by simp)
  · exact absurd h (by simp)

theorem remove_free_block_eq {o p : Nat} {st st2 : AllocState}
    (h : remove_free_block o p st = some st2) :
    o ≤ LastOrder ∧ block_aligned o p = true ∧
    ∃ l2, removeFirst p (getL st o) = some l2 ∧ st2 = setL st o l2 := by
  unfold remove_free_block at h
  split at h
  · split at h
    · cases hrec : removeFirst p (getL st o) with
      | none => rw [hrec] at h; exact absurd h (by simp)
      | some l2 =>
        rw [hrec] at h
        simp only [Option.some.injEq] at h
        exact ⟨by assumption, by assumption, l2, rfl, h.symm⟩
    · exact absurd h (by simp)
  · exact absurd h (by simp)

theorem insert_free_block_frame {o p : Nat} {st st2 : AllocState}
    (h : insert_free_block o p st = some st2) :
    st2.total_free = st.total_free ∧ st2.pending_merges = st.pending_merges ∧
    st2.free_list.length = st.free_list.length := by
  obtain ⟨-, -, l2, -, rfl⟩ := insert_free_block_eq h
  exact ⟨rfl, rfl, setL_len⟩

theorem remove_free_block_frame {o p : Nat} {st st2 : AllocState}
    (h : remove_free_block o p st = some st2) :
    st2.total_free = st.total_free ∧ st2.pending_merges = st.pending_merges ∧
    st2.free_list.length = st.free_list.length := by
  obtain ⟨-, -, l2, -, rfl⟩ := remove_free_block_eq h
  exact ⟨rfl, rfl, setL_len⟩

theorem insert_free_block_mem {o p : Nat} {st st2 : AllocState}
    (h : insert_free_block o p st = some st2) (hlen : st.free_list.length = LastOrder + 1) :
    ∀ j x, x ∈ getL st2 j ↔ (x ∈ getL st j ∨ (j = o ∧ x = p)) := by
  obtain ⟨ho, hal, l2, hins, rfl⟩ := insert_free_block_eq h
  intro j x
  by_cases hj : j = o
  · subst hj
    rw [getL_setL_self (by omega)]
    rw [insertSorted_mem hins x]
    tauto
  · rw [getL_setL_ne hj]
    simp [hj]

theorem remove_free_block_mem {o p : Nat} {st st2 : AllocState}
    (h : remove_free_block o p st = some st2) (hlen : st.free_list.length = LastOrder + 1)
    (hsorted : ∀ k, (getL st k).Pairwise (· < ·)) :
    ∀ j x, x ∈ getL st2 j ↔ (x ∈ getL st j ∧ ¬(j = o ∧ x = p)) := by
  obtain ⟨ho, hal, l2, hrem, rfl⟩ := remove_free_block_eq h
  intro j x
  by_cases hj : j = o
  · subst hj
    rw [getL_setL_self (by omega)]
    rw [removeFirst_mem (hsorted j) hrem x]
    tauto
  · rw [getL_setL_ne hj]
    simp [hj]

theorem remove_free_block_self {o p : Nat} {st st2 : AllocState}
    (h : remove_free_block o p st = some st2) : p ∈ getL st o := by
  obtain ⟨-, -, l2, hrem, -⟩ := remove_free_block_eq h
  exact removeFirst_self_mem hrem

theorem insert_free_block_inv {o p : Nat} {st st2 : AllocState} (hinv : Inv st)
    (h : insert_free_block o p st = some st2)
    (hfresh : FreshRange st p (pages_per_block o)) : Inv st2 := by
  obtain ⟨ho, hal, l2, hins, rfl⟩ := insert_free_block_eq h
  have hmem := insert_free_block_mem h hinv.len
  refine ⟨by rw [setL_len]; exact hinv.len, ?_, ?_, ?_⟩
  · intro k
    by_cases hk : k = o
    · subst hk
      rw [getL_setL_self (by rw [hinv.len]; omega)]
      exact insertSorted_pairwise (hinv.sorted _) hins
    · rw [getL_setL_ne hk]
      exact hinv.sorted k
  · intro k x hx
    rcases (hmem k x).mp hx with hold | ⟨rfl, rfl⟩
    · exact hinv.aligned k x hold
    · rw [pages_per_block_eq]
      exact block_aligned_iff.mp hal
  · intro k j x y hx hy hne
    rcases (hmem k x).mp hx with hxo | ⟨rfl, rfl⟩ <;>
      rcases (hmem j y).mp hy with hyo | ⟨rfl, rfl⟩
    · exact hinv.disj k j x y hxo hyo hne
    · rcases hfresh k x hxo with hc | hc
      · right; omega
      · left; omega
    · rcases hfresh j y hyo with hc | hc
      · left; omega
      · right; omega
    · exact absurd ⟨rfl, rfl⟩ hne

theorem remove_free_block_inv {o p : Nat} {st st2 : AllocState} (hinv : Inv st)
    (h : remove_free_block o p st = some st2) : Inv st2 := by
  obtain ⟨ho, hal, l2, hrem, rfl⟩ := remove_free_block_eq h
  have hmem := remove_free_block_mem h hinv.len hinv.sorted
  refine ⟨by rw [setL_len]; exact hinv.len, ?_, ?_, ?_⟩
  · intro k
    by_cases hk : k = o
    · subst hk
      rw [getL_setL_self (by rw [hinv.len]; omega)]
      exact List.Pairwise.sublist (removeFirst_sublist hrem) (hinv.sorted _)
    · rw [getL_setL_ne hk]
      exact hinv.sorted k
  · intro k x hx
    exact hinv.aligned k x ((hmem k x).mp hx).1
  · intro k j x y hx hy hne
    exact hinv.disj k j x y ((hmem k x).mp hx).1 ((hmem j y).mp hy).1 hne

theorem xor_pow_add {k p : Nat} (h : p % 2 ^ (k + 1) = 0) : p ^^^ 2 ^ k = p + 2 ^ k := by
  induction k generalizing p with
  | zero =>
    have h2 : p % 2 = 0 := by simpa using h
    have e4 := Nat.div_add_mod p 2
    have e1 := Nat.div_add_mod (p ^^^ 1) 2
    have e2 : (p ^^^ 1) / 2 = p / 2 := by
      rw [Nat.xor_div_two]
      norm_num
    have e3 : (p ^^^ 1) % 2 = 1 := by
      rw [Nat.xor_mod_two_eq_one]
      omega
    simp only [pow_zero]
    omega
  | succ k ih =>
    have hpow1 : (2 : Nat) ^ (k + 1 + 1) = 2 * 2 ^ (k + 1) := by ring
    have hpow2 : (2 : Nat) ^ (k + 1) = 2 * 2 ^ k := by ring
    have hmod2 : p % 2 = 0 := by
      have h5 := Nat.mod_mod_of_dvd p (dvd_pow_self 2 (Nat.succ_ne_zero (k + 1)))
      rw [h] at h5
      omega
    have hdiv : p / 2 % 2 ^ (k + 1) = 0 := by
      have h5 := Nat.mod_mul_right_div_self p 2 (2 ^ (k + 1))
      rw [← hpow1, h] at h5
      omega
    have ihp := ih hdiv
    have e1 := Nat.div_add_mod (p ^^^ 2 ^ (k + 1)) 2
    have e2 : (p ^^^ 2 ^ (k + 1)) / 2 = p / 2 ^^^ 2 ^ k := by
      rw [Nat.xor_div_two, hpow2, Nat.mul_div_cancel_left _ (by omega : (0 : Nat) < 2)]
    have e3 : (p ^^^ 2 ^ (k + 1)) % 2 = 0 := by
      have hb : (2 : Nat) ^ (k + 1) % 2 = 0 := by
        rw [hpow2]
        omega
      have h6 := @Nat.xor_mod_two_eq_one p (2 ^ (k + 1))
      omega
    have e4 := Nat.div_add_mod p 2
    omega

theorem xor_pow_sub {k p : Nat} (h : p % 2 ^ (k + 1) = 2 ^ k) : p ^^^ 2 ^ k = p - 2 ^ k := by
  induction k generalizing p with
  | zero =>
    have h2 : p % 2 = 1 := by simpa using h
    have e4 := Nat.div_add_mod p 2
    have e1 := Nat.div_add_mod (p ^^^ 1) 2
    have e2 : (p ^^^ 1) / 2 = p / 2 := by
      rw [Nat.xor_div_two]
      norm_num
    have e3 : (p ^^^ 1) % 2 = 0 := by
      have h6 := @Nat.xor_mod_two_eq_one p 1
      omega
    simp only [pow_zero]
    omega
  | succ k ih =>
    have hpow1 : (2 : Nat) ^ (k + 1 + 1) = 2 * 2 ^ (k + 1) := by ring
    have hpow2 : (2 : Nat) ^ (k + 1) = 2 * 2 ^ k := by ring
    have hmod2 : p % 2 = 0 := by
      have h5 := Nat.mod_mod_of_dvd p (dvd_pow_self 2 (Nat.succ_ne_zero (k + 1)))
      rw [h, hpow2] at h5
      omega
    have hdiv : p / 2 % 2 ^ (k + 1) = 2 ^ k := by
      have h5 := Nat.mod_mul_right_div_self p 2 (2 ^ (k + 1))
      rw [← hpow1, h, hpow2, Nat.mul_div_cancel_left _ (by omega : (0 : Nat) < 2)] at h5
      rw [hpow2]
      omega
    have hk2 : 2 ^ k ≤ p / 2 := by
      rw [← hdiv]
      exact Nat.mod_le _ _
    have ihp := ih hdiv
    have e1 := Nat.div_add_mod (p ^^^ 2 ^ (k + 1)) 2
    have e2 : (p ^^^ 2 ^ (k + 1)) / 2 = p / 2 ^^^ 2 ^ k := by
      rw [Nat.xor_div_two, hpow2, Nat.mul_div_cancel_left _ (by omega : (0 : Nat) < 2)]
    have e3 : (p ^^^ 2 ^ (k + 1)) % 2 = 0 := by
      have hb : (2 : Nat) ^ (k + 1) % 2 = 0 := by
        rw [hpow2]
        omega
      have h6 := @Nat.xor_mod_two_eq_one p (2 ^ (k + 1))
      omega
    have e4 := Nat.div_add_mod p 2
    omega

/-- When `p` is `2 ^ k`-aligned, its buddy `p ^^^ 2 ^ k` is either
`p + 2 ^ k` or `p - 2 ^ k`, by the parity of bit `k`. -/
theorem buddy_split {k p : Nat} (hal : p % 2 ^ k = 0) :
    p ^^^ 2 ^ k = p + 2 ^ k ∨ (2 ^ k ≤ p ∧ p ^^^ 2 ^ k = p - 2 ^ k) := by
  have hpos : (0 : Nat) < 2 ^ k := by positivity
  have hr1 : p % 2 ^ (k + 1) % 2 ^ k = 0 := by
    rw [Nat.mod_mod_of_dvd p (pow_dvd_pow 2 (Nat.le_succ k))]
    exact hal
  have hr2 : p % 2 ^ (k + 1) < 2 ^ (k + 1) := Nat.mod_lt _ (by positivity)
  have hpow : (2 : Nat) ^ (k + 1) = 2 * 2 ^ k := by ring
  have hd := Nat.div_add_mod (p % 2 ^ (k + 1)) (2 ^ k)
  have hq : p % 2 ^ (k + 1) / 2 ^ k < 2 := by
    rw [Nat.div_lt_iff_lt_mul hpos]
    omega
  have hcase : p % 2 ^ (k + 1) = 0 ∨ p % 2 ^ (k + 1) = 2 ^ k := by
    interval_cases h5 : p % 2 ^ (k + 1) / 2 ^ k
    · left
      omega
    · right
      omega
  rcases hcase with h0 | h1
  · exact Or.inl (xor_pow_add h0)
  · refine Or.inr ⟨?_, xor_pow_sub h1⟩
    have := Nat.mod_le p (2 ^ (k + 1))
    omega

theorem calc_buddy_eq (o p : Nat) : calculate_other_buddy_pfn o p = p ^^^ 2 ^ o := by
  simp [calculate_other_buddy_pfn, Nat.one_shiftLeft]

theorem set_pending_merge_frame {p o : Nat} {st st2 : AllocState}
    (h : set_pending_merge p o st = some st2) :
    st2.free_list = st.free_list ∧ st2.total_free = st.total_free := by
  unfold set_pending_merge at h
  split at h
  · simp only [Option.some.injEq] at h
    subst h
    exact ⟨rfl, rfl⟩
  · exact absurd h (by simp)

theorem clear_pending_merge_frame {p o : Nat} {st st2 : AllocState}
    (h : clear_pending_merge p o st = some st2) :
    st2.free_list = st.free_list ∧ st2.total_free = st.total_free := by
  unfold clear_pending_merge at h
  split at h
  · simp only [Option.some.injEq] at h
    subst h
    exact ⟨rfl, rfl⟩
  · exact absurd h (by simp)

theorem split_block_eq {o p : Nat} {st st2 : AllocState}
    (h : split_block o p st = some st2) :
    0 < o ∧ o ≤ LastOrder ∧ block_aligned o p = true ∧
    ∃ stA stB, remove_free_block o p st = some stA ∧
      insert_free_block (o - 1) p stA = some stB ∧
      insert_free_block (o - 1) (p + pages_per_block (o - 1)) stB = some st2 := by
  unfold split_block at h
  split at h
  · split at h
    · rw [Option.bind_eq_some] at h
      obtain ⟨stA, hA, h⟩ := h
      rw [Option.bind_eq_some] at h
      obtain ⟨stB, hB, h⟩ := h
      have hord : 0 < o ∧ o ≤ LastOrder := by assumption
      exact ⟨hord.1, hord.2, by assumption, stA, stB, hA, hB, h⟩
    · exact absurd h (by simp)
  · exact absurd h (by simp)

/-- A split preserves the structural invariant: the two halves cover exactly
the range of the removed block. -/
theorem split_block_inv {o p : Nat} {st st2 : AllocState} (hinv : Inv st)
    (h : split_block o p st = some st2) : Inv st2 := by
  obtain ⟨ho, ho2, hal, stA, stB, hA, hB, hC⟩ := split_block_eq h
  have hmemA := remove_free_block_mem hA hinv.len hinv.sorted
  have hinvA := remove_free_block_inv hinv hA
  have hself := remove_free_block_self hA
  have hh := pages_per_block_double ho
  -- the whole block at `p` was disjoint from everything else
  have hbig : ∀ k q, q ∈ getL stA k → p + pages_per_block o ≤ q ∨ q + pages_per_block k ≤ p := by
    intro k q hq
    rcases (hmemA k q).mp hq with ⟨hq0, hne⟩
    exact hinv.disj o k p q hself hq0 (by tauto)
  have hfreshB : FreshRange stA p (pages_per_block (o - 1)) := by
    intro k q hq
    rcases hbig k q hq with hc | hc
    · left; omega
    · right; omega
  have hinvB := insert_free_block_inv hinvA hB hfreshB
  have hmemB := insert_free_block_mem hB hinvA.len
  have hfreshC : FreshRange stB (p + pages_per_block (o - 1)) (pages_per_block (o - 1)) := by
    intro k q hq
    rcases (hmemB k q).mp hq with hq0 | ⟨rfl, rfl⟩
    · rcases hbig k q hq0 with hc | hc
      · left; omega
      · right; omega
    · right; omega
  exact insert_free_block_inv hinvB hC hfreshC

theorem is_buddy_free_iff {o q : Nat} {st : AllocState} :
    is_buddy_free o q st = true ↔ q ∈ getL st o := by
  simp [is_buddy_free, List.contains_eq_any_beq]

theorem merge_buddies_eq {o p : Nat} {st st2 : AllocState}
    (h : merge_buddies o p st = some st2) :
    o ≤ LastOrder ∧ block_aligned o p = true ∧
    block_aligned o (calculate_other_buddy_pfn o p) = true ∧
    is_buddy_free o (calculate_other_buddy_pfn o p) st = true ∧
    ∃ stA stB, remove_free_block o p st = some stA ∧
      remove_free_block o (calculate_other_buddy_pfn o p) stA = some stB ∧
      insert_free_block (o + 1) (min p (calculate_other_buddy_pfn o p)) stB = some st2 := by
  unfold merge_buddies at h
  split at h
  · split at h
    · split at h
      · rw [Option.bind_eq_some] at h
        obtain ⟨stA, hA, h⟩ := h
        rw [Option.bind_eq_some] at h
        obtain ⟨stB, hB, h⟩ := h
        have hali : (block_aligned o p && block_aligned o (calculate_other_buddy_pfn o p)) = true := by
          assumption
        simp only [Bool.and_eq_true] at hali
        exact ⟨by assumption, hali.1, hali.2, by assumption, stA, stB, hA, hB, h⟩
      · exact absurd h (by simp)
    · exact absurd h (by simp)
  · exact absurd h (by simp)

/-- A merge of verified-free buddies preserves the structural invariant, and
the merged block appears on the next-higher list. -/
theorem merge_buddies_spec {o p : Nat} {st st2 : AllocState} (hinv : Inv st)
    (h : merge_buddies o p st = some st2) :
    Inv st2 ∧ min p (calculate_other_buddy_pfn o p) ∈ getL st2 (o + 1) ∧
    st2.total_free = st.total_free := by
  obtain ⟨ho, halp, halq, hfree, stA, stB, hA, hB, hC⟩ := merge_buddies_eq h
  set q := calculate_other_buddy_pfn o p with hqdef
  have hpmem := remove_free_block_self hA
  have hinvA := remove_free_block_inv hinv hA
  have hmemA := remove_free_block_mem hA hinv.len hinv.sorted
  have hqmemA := remove_free_block_self hB
  have hqmem : q ∈ getL st o := ((hmemA o q).mp hqmemA).1
  have hqnep : q ≠ p := by
    have := ((hmemA o q).mp hqmemA).2
    tauto
  have hinvB := remove_free_block_inv hinvA hB
  have hmemB := remove_free_block_mem hB hinvA.len hinvA.sorted
  -- the two buddies are adjacent: q = p + 2 ^ o or p = q + 2 ^ o
  have halp2 : p % 2 ^ o = 0 := block_aligned_iff.mp halp
  have hq2 : q = p ^^^ 2 ^ o := by rw [hqdef, calc_buddy_eq]
  have hadj : q = p + pages_per_block o ∨ (pages_per_block o ≤ p ∧ q + pages_per_block o = p) := by
    rw [pages_per_block_eq]
    rcases buddy_split halp2 with hc | ⟨hle, hc⟩
    · left
      rw [hq2, hc]
    · right
      refine ⟨hle, ?_⟩
      rw [hq2, hc]
      omega
  -- hence min p q starts the union of the two ranges
  have hm : (min p q = p ∧ q = p + pages_per_block o) ∨
      (min p q = q ∧ p = q + pages_per_block o) := by
    have hpp := pages_per_block_pos o
    rcases hadj with hc | ⟨hle, hc⟩
    · left
      exact ⟨by omega, hc⟩
    · right
      exact ⟨by omega, by omega⟩
  have hfreshC : FreshRange stB (min p q) (pages_per_block (o + 1)) := by
    intro k r hr
    rcases (hmemB k r).mp hr with ⟨hr1, hrne1⟩
    rcases (hmemA k r).mp hr1 with ⟨hr0, hrne0⟩
    have hd1 := hinv.disj o k p r hpmem hr0 (by tauto)
    have hd2 := hinv.disj o k q r hqmem hr0 (by tauto)
    have hsp := pages_per_block_succ o
    have hgpos := pages_per_block_pos k
    rcases hm with ⟨hmin, hq⟩ | ⟨hmin, hp⟩ <;> rw [hmin] <;> omega
  have hinv2 := insert_free_block_inv hinvB hC hfreshC
  have hmem2 := insert_free_block_mem hC hinvB.len
  refine ⟨hinv2, ?_, ?_⟩
  · exact (hmem2 (o + 1) (min p q)).mpr (Or.inr ⟨rfl, rfl⟩)
  · have e1 := (insert_free_block_frame hC).1
    have e2 := (remove_free_block_frame hB).1
    have e3 := (remove_free_block_frame hA).1
    omega

/-- Freeing a block whose leading PFN is already on the free list of its
order dies on the duplicate-insert assert at once. -/
theorem free_pages_go_none_of_mem {p o fuel : Nat} {st : AllocState}
    (hs : (getL st o).Pairwise (· < ·)) (hp : p ∈ getL st o) :
    free_pages_go p o fuel st = none := by
  cases fuel with
  | zero => rfl
  | succ fuel =>
    simp only [free_pages_go]
    split
    · split
      · have hins : insert_free_block o p st = none := by
          unfold insert_free_block
          rw [if_pos (by assumption), if_pos (by assumption), insertSorted_none_of_mem hs hp]
        rw [hins]
        rfl
      · rfl
    · rfl

/-- A successful `free_pages` adds exactly the freed block to its free list:
the pending-merge path can never complete, because `merge_buddies` already
re-inserts the merged block at the next order and the recursive call then
trips the duplicate-insert assert. -/
theorem free_pages_go_spec {p o fuel : Nat} {st st2 : AllocState} (hinv : Inv st)
    (hfresh : FreshRange st p (pages_per_block o))
    (h : free_pages_go p o fuel st = some st2) :
    Inv st2 ∧ ∀ j x, x ∈ getL st2 j ↔ (x ∈ getL st j ∨ (j = o ∧ x = p)) := by
  cases fuel with
  | zero => exact absurd h (by simp [free_pages_go])
  | succ fuel =>
    simp only [free_pages_go] at h
    split at h
    · split at h
      · rw [Option.bind_eq_some] at h
        obtain ⟨st1, h1, h⟩ := h
        have hinv1 := insert_free_block_inv hinv h1 hfresh
        have hmem1 := insert_free_block_mem h1 hinv.len
        split at h
        · split at h
          · split at h
            · rw [Option.bind_eq_some] at h
              obtain ⟨st2p, h2, h⟩ := h
              rw [Option.bind_eq_some] at h
              obtain ⟨st3, h3, h⟩ := h
              rw [Option.bind_eq_some] at h
              obtain ⟨st4, h4, h⟩ := h
              have hinv2 : Inv st2p := inv_congr (clear_pending_merge_frame h2).1 hinv1
              have hspec3 := merge_buddies_spec hinv2 h3
              have hnone := @free_pages_go_none_of_mem (min p (calculate_other_buddy_pfn o p)) (o + 1)
                fuel st3 (hspec3.1.sorted (o + 1)) hspec3.2.1
              rw [hnone] at h4
              exact absurd h4 (by simp)
            · rw [Option.bind_eq_some] at h
              obtain ⟨st2p, h2, h⟩ := h
              simp only [Option.some.injEq] at h
              subst h
              have hfl : st2p.free_list = st1.free_list := (set_pending_merge_frame h2).1
              refine ⟨@inv_congr st1 _ hfl hinv1, ?_⟩
              intro j x
              have hg : getL { st2p with total_free := add64 st2p.total_free (pages_per_block o) } j =
                  getL st1 j := by
                simp [getL, hfl]
              rw [hg]
              exact hmem1 j x
          · simp only [Option.some.injEq] at h
            subst h
            refine ⟨@inv_congr st1 _ rfl hinv1, ?_⟩
            intro j x
            exact hmem1 j x
        · simp only [Option.some.injEq] at h
          subst h
          refine ⟨@inv_congr st1 _ rfl hinv1, ?_⟩
          intro j x
          exact hmem1 j x
      · exact absurd h (by simp)
    · exact absurd h (by simp)

theorem free_pages_spec {p o : Nat} {st st2 : AllocState} (hinv : Inv st)
    (hfresh : FreshRange st p (pages_per_block o))
    (h : free_pages p o st = some st2) :
    Inv st2 ∧ ∀ j x, x ∈ getL st2 j ↔ (x ∈ getL st j ∨ (j = o ∧ x = p)) :=
  free_pages_go_spec hinv hfresh h

theorem pick_order_le {pfn remaining : Nat} (hr : 0 < remaining) (n : Nat) :
    block_aligned (pick_order pfn remaining n) pfn = true ∧
    pages_per_block (pick_order pfn remaining n) ≤ remaining ∧
    pick_order pfn remaining n ≤ n := by
  induction n with
  | zero =>
    refine ⟨?_, ?_, Nat.le_refl 0⟩
    · simp [pick_order, block_aligned, pages_per_block]
    · simpa [pick_order, pages_per_block_eq] using hr
  | succ n ih =>
    simp only [pick_order]
    split
    · rename_i hcond
      simp only [Bool.and_eq_true, decide_eq_true_eq] at hcond
      exact ⟨hcond.1, hcond.2, Nat.le_refl _⟩
    · exact ⟨ih.1, ih.2.1, Nat.le_trans ih.2.2 (Nat.le_succ n)⟩

theorem pick_order_max {pfn remaining : Nat} (n j : Nat) (hj : j ≤ n)
    (hal : block_aligned j pfn = true) (hsz : pages_per_block j ≤ remaining) :
    j ≤ pick_order pfn remaining n := by
  induction n with
  | zero => omega
  | succ n ih =>
    simp only [pick_order]
    split
    · omega
    · rename_i hcond
      rcases Nat.lt_or_ge j (n + 1) with hlt | hge
      · exact ih (by omega)
      · have hj1 : j = n + 1 := by omega
        subst hj1
        simp only [Bool.and_eq_true, decide_eq_true_eq] at hcond
        exact absurd ⟨hal, hsz⟩ hcond

theorem insert_loop_go_inv {fuel : Nat} : ∀ {pfn remaining inserted : Nat}
    {st : AllocState} {res : AllocState × Nat}, Inv st → FreshRange st pfn remaining →
    insert_loop_go pfn remaining inserted fuel st = some res → Inv res.1 := by
  induction fuel with
  | zero =>
    intro pfn remaining inserted st res hinv hfresh h
    simp only [insert_loop_go] at h
    split at h
    · simp only [Option.some.injEq] at h
      subst h
      exact hinv
    · exact absurd h (by simp)
  | succ fuel ih =>
    intro pfn remaining inserted st res hinv hfresh h
    simp only [insert_loop_go] at h
    split at h
    · simp only [Option.some.injEq] at h
      subst h
      exact hinv
    · rw [Option.bind_eq_some] at h
      obtain ⟨st1, h1, h⟩ := h
      rename_i hr0
      have hrpos : 0 < remaining := Nat.pos_of_ne_zero hr0
      have hple := @pick_order_le pfn remaining hrpos LastOrder
      have hfresh1 : FreshRange st pfn
          (pages_per_block (pick_order pfn remaining LastOrder)) := by
        intro k q hq
        rcases hfresh k q hq with hc | hc
        · left; omega
        · right; omega
      have hspec := free_pages_spec hinv hfresh1 h1
      have hfresh2 : FreshRange st1
          (pfn + pages_per_block (pick_order pfn remaining LastOrder))
          (remaining - pages_per_block (pick_order pfn remaining LastOrder)) := by
        intro k q hq
        rcases (hspec.2 k q).mp hq with hq0 | ⟨rfl, rfl⟩
        · rcases hfresh k q hq0 with hc | hc
          · left; omega
          · right; omega
        · right; omega
      exact ih hspec.1 hfresh2 h

theorem insert_free_pages_inv {pfn count : Nat} {st st2 : AllocState} (hinv : Inv st)
    (hfresh : FreshRange st pfn count) (h : insert_free_pages pfn count st = some st2) :
    Inv st2 := by
  unfold insert_free_pages at h
  split at h
  · rw [Option.bind_eq_some] at h
    obtain ⟨r, h1, h⟩ := h
    simp only [Option.some.injEq] at h
    subst h
    exact @inv_congr r.1 _ rfl (insert_loop_go_inv hinv hfresh h1)
  · exact absurd h (by simp)

theorem splitDown_inv {p target : Nat} : ∀ {co : Nat} {st st2 : AllocState}, Inv st →
    splitDown p target co st = some st2 → Inv st2 := by
  intro co
  induction co with
  | zero =>
    intro st st2 hinv h
    simp only [splitDown, Option.some.injEq] at h
    subst h
    exact hinv
  | succ co ih =>
    intro st st2 hinv h
    simp only [splitDown] at h
    split at h
    · rw [Option.bind_eq_some] at h
      obtain ⟨st1, h1, h⟩ := h
      exact ih (split_block_inv hinv h1) h
    · simp only [Option.some.injEq] at h
      subst h
      exact hinv

theorem splitDown_frame {p target : Nat} : ∀ {co : Nat} {st st2 : AllocState},
    splitDown p target co st = some st2 → st2.total_free = st.total_free := by
  intro co
  induction co with
  | zero =>
    intro st st2 h
    simp only [splitDown, Option.some.injEq] at h
    subst h
    rfl
  | succ co ih =>
    intro st st2 h
    simp only [splitDown] at h
    split at h
    · rw [Option.bind_eq_some] at h
      obtain ⟨st1, h1, h⟩ := h
      obtain ⟨hs, hs2, hal, stA, stB, hA, hB, hC⟩ := split_block_eq h1
      have e1 := (remove_free_block_frame hA).1
      have e2 := (insert_free_block_frame hB).1
      have e3 := (insert_free_block_frame hC).1
      have e4 := ih h
      omega
    · simp only [Option.some.injEq] at h
      subst h
      rfl

theorem alloc_scan_split_first_inv {order : Nat} : ∀ {l : List Nat} {st : AllocState}
    {st2 : AllocState} {p : Nat}, Inv st →
    alloc_scan_split_first order l st = some (some (st2, p)) → Inv st2 := by
  intro l
  induction l with
  | nil =>
    intro st st2 p hinv h
    exact absurd h (by simp [alloc_scan_split_first])
  | cons co rest ih =>
    intro st st2 p hinv h
    simp only [alloc_scan_split_first] at h
    split at h
    · exact ih hinv h
    · rw [Option.bind_eq_some] at h
      obtain ⟨st1, h1, h⟩ := h
      rw [Option.bind_eq_some] at h
      obtain ⟨stR, hR, h⟩ := h
      simp only [Option.some.injEq, Prod.mk.injEq] at h
      obtain ⟨h, -⟩ := h
      subst h
      exact @inv_congr stR _ rfl (remove_free_block_inv (splitDown_inv hinv h1) hR)

theorem alloc_scan_remove_first_inv {order : Nat} : ∀ {l : List Nat} {st : AllocState}
    {st2 : AllocState} {p : Nat}, Inv st →
    alloc_scan_remove_first order l st = some (some (st2, p)) → Inv st2 := by
  intro l
  induction l with
  | nil =>
    intro st st2 p hinv h
    exact absurd h (by simp [alloc_scan_remove_first])
  | cons co rest ih =>
    intro st st2 p hinv h
    simp only [alloc_scan_remove_first] at h
    split at h
    · exact ih hinv h
    · rw [Option.bind_eq_some] at h
      obtain ⟨st1, h1, h⟩ := h
      rw [Option.bind_eq_some] at h
      obtain ⟨stR, hR, h⟩ := h
      simp only [Option.some.injEq, Prod.mk.injEq] at h
      obtain ⟨h, -⟩ := h
      subst h
      exact @inv_congr stR _ rfl (splitDown_inv (remove_free_block_inv hinv h1) hR)

theorem cleanup_step_inv {order idx : Nat} {st st2 : AllocState} (hinv : Inv st)
    (h : cleanup_step order idx st = some st2) :
    Inv st2 ∧ st2.total_free = st.total_free := by
  unfold cleanup_step at h
  split at h
  · split at h
    · split at h
      · rw [Option.bind_eq_some] at h
        obtain ⟨st1, h1, h⟩ := h
        have hm := merge_buddies_spec hinv h1
        have hc := clear_pending_merge_frame h
        exact ⟨inv_congr hc.1 hm.1, hc.2.trans hm.2.2⟩
      · have hc := clear_pending_merge_frame h
        exact ⟨inv_congr hc.1 hinv, hc.2⟩
    · have hc := clear_pending_merge_frame h
      exact ⟨inv_congr hc.1 hinv, hc.2⟩
  · simp only [Option.some.injEq] at h
    subst h
    exact ⟨hinv, rfl⟩

theorem cleanup_row_inv {order : Nat} : ∀ {l : List Nat} {st st2 : AllocState}, Inv st →
    cleanup_row order l st = some st2 → Inv st2 ∧ st2.total_free = st.total_free := by
  intro l
  induction l with
  | nil =>
    intro st st2 hinv h
    simp only [cleanup_row, Option.some.injEq] at h
    subst h
    exact ⟨hinv, rfl⟩
  | cons idx rest ih =>
    intro st st2 hinv h
    simp only [cleanup_row] at h
    rw [Option.bind_eq_some] at h
    obtain ⟨st1, h1, h⟩ := h
    have hs := cleanup_step_inv hinv h1
    have hr := ih hs.1 h
    exact ⟨hr.1, hr.2.trans hs.2⟩

theorem cleanup_orders_inv : ∀ {l : List Nat} {st st2 : AllocState}, Inv st →
    cleanup_orders l st = some st2 → Inv st2 ∧ st2.total_free = st.total_free := by
  intro l
  induction l with
  | nil =>
    intro st st2 hinv h
    simp only [cleanup_orders, Option.some.injEq] at h
    subst h
    exact ⟨hinv, rfl⟩
  | cons o rest ih =>
    intro st st2 hinv h
    simp only [cleanup_orders] at h
    rw [Option.bind_eq_some] at h
    obtain ⟨st1, h1, h⟩ := h
    have hs := cleanup_row_inv hinv h1
    have hr := ih hs.1 h
    exact ⟨hr.1, hr.2.trans hs.2⟩

theorem cleanup_pending_merges_inv {st st2 : AllocState} (hinv : Inv st)
    (h : cleanup_pending_merges st = some st2) : Inv st2 ∧ st2.total_free = st.total_free :=
  cleanup_orders_inv hinv h

theorem allocate_pages_inv {order : Nat} {st st2 : AllocState} {r : Option Nat}
    (hinv : Inv st) (h : allocate_pages order st = some (st2, r)) : Inv st2 := by
  unfold allocate_pages at h
  split at h
  · split at h
    · rename_i v st1 p heq
      simp only [Option.some.injEq, Prod.mk.injEq] at h
      obtain ⟨h, -⟩ := h
      subst h
      exact alloc_scan_split_first_inv hinv heq
    · rename_i v heq
      split at h
      · rename_i st1 hcl
        split at h
        · rename_i v2 st3 p2 heq2
          simp only [Option.some.injEq, Prod.mk.injEq] at h
          obtain ⟨h, -⟩ := h
          subst h
          exact alloc_scan_remove_first_inv (cleanup_pending_merges_inv hinv hcl).1 heq2
        · simp only [Option.some.injEq, Prod.mk.injEq] at h
          obtain ⟨h, -⟩ := h
          subst h
          exact (cleanup_pending_merges_inv hinv hcl).1
        · exact absurd h (by simp)
      · exact absurd h (by simp)
    · exact absurd h (by simp)
  · exact absurd h (by simp)

theorem initial_state_inv (t : Nat) : Inv (initial_state t) := by
  refine ⟨by simp [initial_state], ?_, ?_, ?_⟩
  · intro k
    rw [getL_initial]
    exact List.Pairwise.nil
  · intro k p hp
    rw [getL_initial] at hp
    exact absurd hp (List.not_mem_nil p)
  · intro k j p q hp hq hne
    rw [getL_initial] at hp
    exact absurd hp (List.not_mem_nil p)

theorem run_op_inv {st st1 : AllocState} {op : AllocOp} (hinv : Inv st) (hv : ValidOp st op)
    (h : run_op st op = some st1) : Inv st1 := by
  cases op with
  | alloc o =>
    simp only [run_op, Option.map_eq_some'] at h
    obtain ⟨⟨stA, r⟩, hA, h⟩ := h
    subst h
    exact allocate_pages_inv hinv hA
  | free p o => exact (free_pages_spec hinv hv h).1
  | insert p c => exact insert_free_pages_inv hinv hv h

theorem reachable_inv {st : AllocState} (h : Reachable st) : Inv st := by
  induction h with
  | init t => exact initial_state_inv t
  | step op hr hv hrun ih => exact run_op_inv ih hv hrun

/-- C3: in every state reached from a fresh allocator by valid public calls
(allocate_pages and free_pages interleaved with insert_free_pages, a freed or
donated range never overlapping a block already free), every free list is
sorted strictly ascending by PFN, holds no PFN twice, every entry is aligned
to `2 ^ k`, and no PFN appears in more than one free list. -/
theorem free_lists_sorted_aligned_disjoint {st : AllocState} (h : Reachable st) :
    (∀ k, (getL st k).Pairwise (· < ·)) ∧
    (∀ k, (getL st k).Nodup) ∧
    (∀ k p, p ∈ getL st k → p % pages_per_block k = 0) ∧
    (∀ k j p, p ∈ getL st k → p ∈ getL st j → k = j) := by
  have hinv := reachable_inv h
  refine ⟨hinv.sorted, fun k => pairwise_lt_nodup (hinv.sorted k), hinv.aligned, ?_⟩
  intro k j p hk hj
  by_contra hne
  have hd := hinv.disj k j p p hk hj (by tauto)
  have h1 := pages_per_block_pos k
  have h2 := pages_per_block_pos j
  omega

/-- Witness for C3 at a concrete reachable state: donate PFNs 0 to 15 to a
fresh allocator and check the claimed shape of the resulting state. -/
theorem free_lists_sorted_aligned_disjoint_witness :
    (∀ k, (getL { free_list := [[], [], [], [], [0], [], [], [], [], [], [], [], [], [], [], [], []]
                  pending_merges := List.replicate (LastOrder + 1) 0
                  total_free := 32 } k).Pairwise (· < ·)) ∧
    (∀ k, (getL { free_list := [[], [], [], [], [0], [], [], [], [], [], [], [], [], [], [], [], []]
                  pending_merges := List.replicate (LastOrder + 1) 0
                  total_free := 32 } k).Nodup) ∧
    (∀ k p, p ∈ getL { free_list := [[], [], [], [], [0], [], [], [], [], [], [], [], [], [], [], [], []]
                       pending_merges := List.replicate (LastOrder + 1) 0
                       total_free := 32 } k → p % pages_per_block k = 0) ∧
    (∀ k j p, p ∈ getL { free_list := [[], [], [], [], [0], [], [], [], [], [], [], [], [], [], [], [], []]
                         pending_merges := List.replicate (LastOrder + 1) 0
                         total_free := 32 } k →
      p ∈ getL { free_list := [[], [], [], [], [0], [], [], [], [], [], [], [], [], [], [], [], []]
                 pending_merges := List.replicate (LastOrder + 1) 0
                 total_free := 32 } j → k = j) :=
  free_lists_sorted_aligned_disjoint
    (Reachable.step (AllocOp.insert 0 16) (Reachable.init 0)
      (fun k q hq => by rw [getL_initial] at hq; exact absurd hq (List.not_mem_nil q))
      (by decide))

theorem merge_buddies_frame {o p : Nat} {st st2 : AllocState}
    (h : merge_buddies o p st = some st2) : st2.total_free = st.total_free := by
  obtain ⟨-, -, -, -, stA, stB, hA, hB, hC⟩ := merge_buddies_eq h
  have e1 := (remove_free_block_frame hA).1
  have e2 := (remove_free_block_frame hB).1
  have e3 := (insert_free_block_frame hC).1
  omega

theorem cleanup_step_total {order idx : Nat} {st st2 : AllocState}
    (h : cleanup_step order idx st = some st2) : st2.total_free = st.total_free := by
  unfold cleanup_step at h
  split at h
  · split at h
    · split at h
      · rw [Option.bind_eq_some] at h
        obtain ⟨st1, h1, h⟩ := h
        exact (clear_pending_merge_frame h).2.trans (merge_buddies_frame h1)
      · exact (clear_pending_merge_frame h).2
    · exact (clear_pending_merge_frame h).2
  · simp only [Option.some.injEq] at h
    subst h
    rfl

theorem cleanup_row_total {order : Nat} : ∀ {l : List Nat} {st st2 : AllocState},
    cleanup_row order l st = some st2 → st2.total_free = st.total_free := by
  intro l
  induction l with
  | nil =>
    intro st st2 h
    simp only [cleanup_row, Option.some.injEq] at h
    subst h
    rfl
  | cons idx rest ih =>
    intro st st2 h
    simp only [cleanup_row] at h
    rw [Option.bind_eq_some] at h
    obtain ⟨st1, h1, h⟩ := h
    exact (ih h).trans (cleanup_step_total h1)

theorem cleanup_orders_total : ∀ {l : List Nat} {st st2 : AllocState},
    cleanup_orders l st = some st2 → st2.total_free = st.total_free := by
  intro l
  induction l with
  | nil =>
    intro st st2 h
    simp only [cleanup_orders, Option.some.injEq] at h
    subst h
    rfl
  | cons o rest ih =>
    intro st st2 h
    simp only [cleanup_orders] at h
    rw [Option.bind_eq_some] at h
    obtain ⟨st1, h1, h⟩ := h
    exact (ih h).trans (cleanup_row_total h1)

theorem alloc_scan_split_first_all_empty {order : Nat} : ∀ {l : List Nat} {st : AllocState},
    (∀ co ∈ l, getL st co = []) → alloc_scan_split_first order l st = some none := by
  intro l
  induction l with
  | nil =>
    intro st h
    rfl
  | cons co rest ih =>
    intro st h
    simp only [alloc_scan_split_first]
    rw [h co (List.mem_cons_self co rest)]
    exact ih (fun c hc => h c (List.mem_cons_of_mem co hc))

theorem alloc_scan_remove_first_all_empty {order : Nat} : ∀ {l : List Nat} {st : AllocState},
    (∀ co ∈ l, getL st co = []) → alloc_scan_remove_first order l st = some none := by
  intro l
  induction l with
  | nil =>
    intro st h
    rfl
  | cons co rest ih =>
    intro st h
    simp only [alloc_scan_remove_first]
    rw [h co (List.mem_cons_self co rest)]
    exact ih (fun c hc => h c (List.mem_cons_of_mem co hc))

theorem scan_range_mem {order co : Nat} (h : co ∈ scan_range order) :
    order ≤ co ∧ co ≤ LastOrder := by
  simp only [scan_range, List.mem_range'] at h
  obtain ⟨i, hi, rfl⟩ := h
  omega

/-- C6 (amended): when every free list from the requested order up to
`LastOrder` is empty and is still empty after the one
`cleanup_pending_merges` pass, `allocate_pages` returns the nullptr
sentinel, performs no further retry, leaves the lists at the requested
orders empty and `total_free` unchanged.  Lists below the requested order
may be rewritten by the cleanup pass (see the counterexample), which is the
only amendment to the claim. -/
theorem allocate_pages_oom {order : Nat} (st st1 : AllocState) (hord : order ≤ LastOrder)
    (h1 : ∀ k, order ≤ k → k ≤ LastOrder → getL st k = [])
    (hc : cleanup_pending_merges st = some st1)
    (h2 : ∀ k, order ≤ k → k ≤ LastOrder → getL st1 k = []) :
    allocate_pages order st = some (st1, none) ∧ st1.total_free = st.total_free := by
  have hs1 : alloc_scan_split_first order (scan_range order) st = some none :=
    alloc_scan_split_first_all_empty
      (fun co hco => h1 co (scan_range_mem hco).1 (scan_range_mem hco).2)
  have hs2 : alloc_scan_remove_first order (scan_range order) st1 = some none :=
    alloc_scan_remove_first_all_empty
      (fun co hco => h2 co (scan_range_mem hco).1 (scan_range_mem hco).2)
  constructor
  · unfold allocate_pages
    rw [if_pos hord]
    simp only [hs1, hc, hs2]
  · exact cleanup_orders_total hc

/-- Witness for C6 (amended) on a fresh allocator: an order-0 request on an
empty allocator returns the nullptr sentinel and changes nothing. -/
theorem allocate_pages_oom_witness :
    allocate_pages 0 (initial_state 0) = some (initial_state 0, none) ∧
      (initial_state 0).total_free = (initial_state 0).total_free :=
  allocate_pages_oom (initial_state 0) (initial_state 0) (by decide)
    (fun k _ _ => getL_initial 0 k) (by decide) (fun k _ _ => getL_initial 0 k)

/-- C5 (amended): `merge_buddies` asserts (panics) when the buddy is not
free, instead of aborting cleanly (see the counterexample); the silent-skip
behaviour does hold for the candidates of `cleanup_pending_merges`: whenever
the hash re-check or the verification of the two buddies fails for a
candidate bit index within the bitmap row range, the step completes without
a panic and leaves every free list and `total_free` unchanged (only a
pending bit is cleared - in the row named by the bit index, because the
arguments of `clear_pending_merge` are swapped there, see C9). -/
theorem cleanup_step_skip {order idx : Nat} (st : AllocState) (hidx : idx ≤ LastOrder)
    (hns : ¬(pending_merge_index idx order = idx ∧
      (block_aligned order idx && block_aligned order (calculate_other_buddy_pfn order idx) &&
       is_buddy_free order idx st &&
       is_buddy_free order (calculate_other_buddy_pfn order idx) st) = true)) :
    ∃ st1, cleanup_step order idx st = some st1 ∧ st1.free_list = st.free_list ∧
      st1.total_free = st.total_free := by
  have hcl : ∃ stc, clear_pending_merge order idx st = some stc ∧
      stc.free_list = st.free_list ∧ stc.total_free = st.total_free := by
    unfold clear_pending_merge
    rw [if_pos hidx]
    exact ⟨_, rfl, rfl, rfl⟩
  unfold cleanup_step
  split
  · split
    · split
      · rename_i hexp hver
        exact absurd ⟨hexp, hver⟩ hns
      · exact hcl
    · exact hcl
  · exact ⟨st, rfl, rfl, rfl⟩

/-- Witness for C5 (amended): candidate (order 0, bit 0) on a fresh
allocator is skipped cleanly. -/
theorem cleanup_step_skip_witness :
    ∃ st1, cleanup_step 0 0 (initial_state 0) = some st1 ∧
      st1.free_list = (initial_state 0).free_list ∧
      st1.total_free = (initial_state 0).total_free :=
  cleanup_step_skip (initial_state 0) (by decide) (by decide)

/-- C8 (amended): `insert_free_pages` decomposes the donated range greedily,
at each step at the largest order that is both aligned at the current PFN
and no larger than the remaining count; for the donation (pfn 3, count 5)
this yields the blocks order-0 at 3 and order-2 at 4 (not the order-1 at 4
with order-0 at 6, 7 the claim lists), and `total_free` rises by 10, twice
the donated count, because of the double counting recorded under C2. -/
theorem insert_free_pages_greedy (pfn remaining : Nat) (hr : 0 < remaining) :
    (block_aligned (pick_order pfn remaining LastOrder) pfn = true ∧
     pages_per_block (pick_order pfn remaining LastOrder) ≤ remaining) ∧
    (∀ j, j ≤ LastOrder → block_aligned j pfn = true → pages_per_block j ≤ remaining →
      j ≤ pick_order pfn remaining LastOrder) ∧
    insert_free_pages 3 5 (initial_state 0) = some misaligned_donate_state := by
  refine ⟨⟨(pick_order_le hr LastOrder).1, (pick_order_le hr LastOrder).2.1⟩, ?_, by decide⟩
  intro j hj hal hsz
  exact pick_order_max LastOrder j hj hal hsz

/-- Witness for C8 (amended) at the donation of the claim, (pfn 3, count
5). -/
theorem insert_free_pages_greedy_witness :
    (block_aligned (pick_order 3 5 LastOrder) 3 = true ∧
     pages_per_block (pick_order 3 5 LastOrder) ≤ 5) ∧
    (∀ j, j ≤ LastOrder → block_aligned j 3 = true → pages_per_block j ≤ 5 →
      j ≤ pick_order 3 5 LastOrder) ∧
    insert_free_pages 3 5 (initial_state 0) = some misaligned_donate_state :=
  insert_free_pages_greedy 3 5 (by decide)

/-- C4: from the scenario-1 state, `allocate_pages(order = 0, none)` returns
the page at PFN 0 and leaves `free_list[0]` = {1}, `free_list[1]` = {2},
`free_list[2]` = {4}, `free_list[3]` = {8} with `total_free` = 15. -/
theorem allocate_split_chain_scenario :
    allocate_pages 0 scenario1_state =
      some ({ free_list := [[1], [2], [4], [8], [], [], [], [], [], [], [], [], [], [], [], [], []]
              pending_merges := List.replicate (LastOrder + 1) 0
              total_free := 15 }, some 0) := by decide

/-- C1 (the code contradicts the claim): from the scenario-2 state,
`free_pages(0, 0)` does set the pending bit for (lower 0, order 0) without
merging and leaves `free_list[0]` = {0, 1} with `total_free` = 16, but the
subsequent `allocate_pages(order = 4, none)` does NOT cascade: the cleanup
pass merges only (0, 1) into an order-1 block (its hash re-check
`get_pending_index(pfn, order) == idx` can only succeed at order 0, and
`merge_buddies` never recurses), the retry still finds orders 4 and above
empty, and the allocation returns the nullptr sentinel with the lists left
as {}, {0, 2}, {4}, {8} and `total_free` = 16. -/
theorem cascaded_merge_scenario_eval :
    free_pages 0 0 scenario2_state = some scenario2_freed_state ∧
    allocate_pages 4 scenario2_freed_state = some (cascade_fail_state, none) := by decide

/-- C2 (the code contradicts the claim): `insert_free_pages(0, 1)` on a
fresh allocator (with `total_free_` = 0) frees the single page through
`free_pages`, which already adds 1 to `total_free_`, and then adds the
inserted count again, ending with `total_free` = 2 while the free lists hold
exactly one order-0 page, so the conservation sum is 1. -/
theorem conservation_violation_eval :
    insert_free_pages 0 1 (initial_state 0) = some donate_one_state ∧
    donate_one_state.total_free = 2 ∧ sum_free donate_one_state = 1 := by decide

/-- C7 (the code contradicts the claim in one point): the constructor leaves
every free list empty and every pending-merge word zero, but it never writes
`total_free_`, so that member keeps whatever (indeterminate) u64 value `t`
the storage held. -/
theorem constructor_state_eval (t : Nat) :
    (initial_state t).free_list = List.replicate (LastOrder + 1) [] ∧
    (initial_state t).pending_merges = List.replicate (LastOrder + 1) 0 ∧
    (initial_state t).total_free = t % U64 :=
  ⟨rfl, rfl, rfl⟩

/-- C9 (the code contradicts the claim): freeing PFNs 33 and 32 at order 0
and allocating both back leaves the pending bit at row 0, bit index 32, with
all lists empty; the next `allocate_pages(0)` runs `cleanup_pending_merges`,
which reaches that bit and calls `clear_pending_merge(order, lower_pfn)`
with its two arguments swapped, so the bitmap row it indexes is the
candidate lower PFN 32 - past the end of the 17-row array.  The embedding
models that out-of-bounds row access as a failure. -/
theorem cleanup_out_of_bounds_row :
    run_ops (initial_state 0)
      [AllocOp.free 33 0, AllocOp.free 32 0, AllocOp.alloc 0, AllocOp.alloc 0] =
      some pend32_state ∧
    run_ops (initial_state 0)
      [AllocOp.free 33 0, AllocOp.free 32 0, AllocOp.alloc 0, AllocOp.alloc 0, AllocOp.alloc 0] =
      none := by decide

/-- C5 counterexample: with only PFN 4 free at order 0 (its buddy PFN 5 not
free anywhere), `merge_buddies(0, 4)` hits
`assert(is_buddy_free(order, other_buddy.pfn()))` and panics (modelled as
`none`), instead of aborting the merge cleanly with the state unchanged. -/
theorem merge_buddies_not_free_asserts :
    merge_buddies 0 4 single4_state = none := by decide

/-- C6 counterexample: with orders 2 and above empty (and staying empty),
`allocate_pages(2)` returns the nullptr sentinel, but the free lists do NOT
all stay unchanged: the cleanup pass merges the pending buddy pair (0, 1)
from `free_list[0]` into `free_list[1]`. -/
theorem alloc_oom_changes_lower_lists :
    allocate_pages 2 pending_pair_state = some (merged_pair_state, none) ∧
    merged_pair_state.free_list ≠ pending_pair_state.free_list := by decide

/-- C8 counterexample: `insert_free_pages(pfn = 3, count = 5)` inserts the
blocks order-0 at 3 and order-2 at 4 (after the first page, PFN 4 is
4-aligned and 4 pages remain, so the greedy rule picks order 2, not the
order-1 at 4 and order-0 at 6 and 7 the claim lists), and `total_free`
becomes 10, not 5. -/
theorem misaligned_donate_eval :
    insert_free_pages 3 5 (initial_state 0) = some misaligned_donate_state ∧
    getL misaligned_donate_state 1 = [] ∧
    misaligned_donate_state.total_free = 10 := by decide

/-- C10: `select_next_task` returns the nullptr sentinel exactly when the
run queue is empty; otherwise it returns the task at the front of the FIFO
and rotates the queue, moving the returned task to the back. -/
theorem select_next_task_spec (current : Option Nat) (q : List Nat) :
    ((select_next_task current q).1 = none ↔ q = []) ∧
    (∀ x xs, q = x :: xs → select_next_task current q = (some x, xs ++ [x])) := by
  cases q with
  | nil => simp [select_next_task]
  | cons a as =>
    constructor
    · simp [select_next_task, rotate]
    · intro x xs hx
      cases hx
      simp [select_next_task, rotate]

end StacsOS
